import Mathlib

/-!
Shallow embedding of the go-multicall library (config.go and service.go).

External collaborators (the ABI codec and the Ethereum RPC client) are
modelled as an explicit environment of oracles; byte strings are `List Nat`,
addresses and client handles are `Nat`, and Go `time.Duration` is `Int`
(nanoseconds).  `MulticallRaw`'s `for` loop is embedded with explicit fuel;
running out of fuel is the `diverge` outcome, a Go runtime panic (slice or
index out of range) is the `fault` outcome.  Every remote invocation
(`Client.CallContract`) is recorded in a trace.
-/

/-- CallRequest mirrors the Go struct `CallRequest`
    (Target, AllowFailure, CallData). -/
structure CallRequest where
  Target : Nat
  AllowFailure : Bool
  CallData : List Nat
deriving DecidableEq, Repr

/-- CallResult mirrors the Go struct `CallResult` (Success, Data). -/
structure CallResult where
  Success : Bool
  Data : List Nat
deriving DecidableEq, Repr

/-- Go zero value of `CallResult`, as produced by `make([]CallResult, n)`. -/
def CallResult.zero : CallResult := ⟨false, []⟩

/-- MulticallConfig mirrors the Go struct `MulticallConfig`. -/
structure MulticallConfig where
  Client : Nat
  MulticallAddress : Nat
  BatchSize : Int
  Timeout : Int
deriving DecidableEq, Repr

/-- Go constant `defaultBatchSize = 100`. -/
def defaultBatchSize : Int := 100

/-- Go `time.Second` in nanoseconds. -/
def timeSecond : Int := 1000000000

/-- Go constant `defaultTimeout = 30 * time.Second`. -/
def defaultTimeout : Int := 30 * timeSecond

/-- Mirrors Go `NewMulticallConfig`: stores the four fields verbatim,
    with no validation of `batchSize`. -/
def NewMulticallConfig (client : Nat) (multicallAddress : Nat)
    (batchSize : Int) (timeout : Int) : MulticallConfig :=
  ⟨client, multicallAddress, batchSize, timeout⟩

/-- Mirrors Go `NewDefaultMulticallConfig`. -/
def NewDefaultMulticallConfig (client : Nat) (multicallAddress : Nat) :
    MulticallConfig :=
  NewMulticallConfig client multicallAddress defaultBatchSize defaultTimeout

/-- Mirrors Go `NewCallRequest`. -/
def NewCallRequest (target : Nat) (packedCallData : List Nat)
    (allowFailure : Bool) : CallRequest :=
  ⟨target, allowFailure, packedCallData⟩

/-- The deadline-bounded context created by `context.WithTimeout` from
    `cfg.Timeout` before the chunk loop. -/
structure Ctx where
  timeout : Int
deriving DecidableEq, Repr

/-- One remote invocation (`Client.CallContract`), recorded with the context
    it was given, the `CallMsg` fields (`To`, `Data`), and — as ghost data for
    specification — the chunk's start index and length. -/
structure Invocation where
  ctx : Ctx
  toAddr : Nat
  data : List Nat
  start : Int
  len : Nat
deriving DecidableEq, Repr

/-- The external collaborators of `MulticallRaw`: the ABI codec
    (`multicallABI.Pack` / `multicallABI.UnpackIntoInterface` for
    `aggregate3`) and the RPC client (`Client.CallContract`). -/
structure Env where
  pack : List CallRequest → Except String (List Nat)
  callContract : Ctx → Nat → List Nat → Except String (List Nat)
  unpack : List Nat → Except String (List CallResult)

/-- Which of the three fallible steps of a chunk produced an error
    (pack / CallContract / UnpackIntoInterface). -/
inductive Stage where
  | packing
  | calling
  | unpacking
deriving DecidableEq, Repr

/-- The error value `MulticallRaw` returns: `fmt.Errorf` wrapping of the
    underlying collaborator error together with the chunk's start index `i`
    (the `%d` in the three format strings). -/
structure MCError where
  stage : Stage
  index : Int
  underlying : String
deriving DecidableEq, Repr

/-- Outcome of a `MulticallRaw` run.  `ok`/`err` are the two Go return
    shapes (`results, nil` and `nil, err`); `fault` is a runtime panic;
    `diverge` marks fuel exhaustion of the embedding (the loop did not
    finish within the given fuel). -/
inductive Outcome where
  | ok (results : List CallResult)
  | err (e : MCError)
  | fault
  | diverge
deriving DecidableEq, Repr

/-- The `[]CallResult` component of the Go return value: `nil` (= `none`)
    on every non-`ok` path. -/
def Outcome.goResults : Outcome → Option (List CallResult)
  | .ok results => some results
  | _ => none

/-- Go slice expression `xs[lo:hi]`: requires `0 ≤ lo ≤ hi ≤ len(xs)`,
    otherwise panics (`none`). -/
def goSlice (xs : List CallRequest) (lo hi : Int) : Option (List CallRequest) :=
  if 0 ≤ lo ∧ lo ≤ hi ∧ hi ≤ (xs.length : Int) then
    some ((xs.drop lo.toNat).take (hi - lo).toNat)
  else none

/-- The batch `calls[i:min(i+cfg.BatchSize, len(calls))]` as a total
    function (the value `goSlice` yields when its bounds are legal). -/
def batchAt (cfg : MulticallConfig) (calls : List CallRequest) (i : Int) :
    List CallRequest :=
  (calls.drop i.toNat).take ((min (i + cfg.BatchSize) (calls.length : Int)) - i).toNat

/-- The scatter loop `for j := range response { results[i+j] = response[j] }`,
    with Go's bounds check on each assignment (`none` = panic). -/
def storeAll : List CallResult → Nat → List CallResult → Option (List CallResult)
  | results, _, [] => some results
  | results, i, r :: rest =>
      if i < results.length then storeAll (results.set i r) (i + 1) rest
      else none

/-- One chunk's pipeline, in source order: `multicallABI.Pack("aggregate3",
    batch)`, then `cfg.Client.CallContract(ctx, callMsg, nil)`, then
    `multicallABI.UnpackIntoInterface(&response, "aggregate3", result)`.
    Also returns the remote invocations issued (none when packing fails,
    exactly one otherwise). -/
def chunkStep (env : Env) (ctx : Ctx) (toAddr : Nat) (i : Int)
    (batch : List CallRequest) :
    Except (Stage × String) (List CallResult) × List Invocation :=
  match env.pack batch with
  | .error e => (.error (Stage.packing, e), [])
  | .ok callData =>
    match env.callContract ctx toAddr callData with
    | .error e => (.error (Stage.calling, e), [⟨ctx, toAddr, callData, i, batch.length⟩])
    | .ok raw =>
      match env.unpack raw with
      | .error e => (.error (Stage.unpacking, e), [⟨ctx, toAddr, callData, i, batch.length⟩])
      | .ok response => (.ok response, [⟨ctx, toAddr, callData, i, batch.length⟩])

/-- The chunk loop of `MulticallRaw`:
    `for i := 0; i < len(calls); i += cfg.BatchSize`, with fuel. -/
def mcLoop (env : Env) (cfg : MulticallConfig) (calls : List CallRequest)
    (ctx : Ctx) :
    Nat → Int → List CallResult → List Invocation → Outcome × List Invocation
  | 0, i, results, trace =>
      if i < (calls.length : Int) then (Outcome.diverge, trace)
      else (Outcome.ok results, trace)
  | fuel + 1, i, results, trace =>
      if i < (calls.length : Int) then
        match goSlice calls i (min (i + cfg.BatchSize) (calls.length : Int)) with
        | none => (Outcome.fault, trace)
        | some batch =>
          match chunkStep env ctx cfg.MulticallAddress i batch with
          | (.error se, invs) =>
              (Outcome.err ⟨se.1, i, se.2⟩, trace ++ invs)
          | (.ok response, invs) =>
            match storeAll results i.toNat response with
            | none => (Outcome.fault, trace ++ invs)
            | some results' =>
                mcLoop env cfg calls ctx fuel (i + cfg.BatchSize) results'
                  (trace ++ invs)
      else (Outcome.ok results, trace)

/-- Embedding of Go `MulticallRaw`: allocate `results` of length
    `len(calls)` (zero values), create the deadline context once from
    `cfg.Timeout`, then run the chunk loop from `i = 0`. -/
def MulticallRaw (env : Env) (cfg : MulticallConfig)
    (calls : List CallRequest) (fuel : Nat) : Outcome × List Invocation :=
  let results := List.replicate calls.length CallResult.zero
  let ctx : Ctx := ⟨cfg.Timeout⟩
  mcLoop env cfg calls ctx fuel 0 results []

/-- The index ranges `[i, min(i+BatchSize, len))` traversed by the loop
    header `for i := 0; i < len(calls); i += cfg.BatchSize`, with the same
    fuel discipline as `mcLoop`. -/
def loopRanges (b : Int) (N : Nat) : Nat → Int → List (Int × Int)
  | 0, _ => []
  | fuel + 1, i =>
      if i < (N : Int) then (i, min (i + b) (N : Int)) :: loopRanges b N fuel (i + b)
      else []

/-- The index range an invocation's recorded chunk covers. -/
def rangeOf (inv : Invocation) : Int × Int :=
  (inv.start, inv.start + (inv.len : Int))

/-- A per-call result function used to build concrete environments:
    every call succeeds with empty data. -/
def fOk : CallRequest → CallResult := fun _ => ⟨true, []⟩

/-- A concrete environment in which every chunk succeeds and decodes to one
    result per call: packing encodes one byte per call, the remote echoes
    the payload, unpacking decodes one result per byte. -/
def envOk : Env :=
  ⟨fun batch => .ok (batch.map fun _ => 0),
   fun _ _ data => .ok data,
   fun raw => .ok (raw.map fun _ => ⟨true, []⟩)⟩

/-- A concrete environment whose remote call fails (error `boom`) exactly on
    payloads of length 1, i.e. on single-call chunks. -/
def envFail : Env :=
  ⟨fun batch => .ok (batch.map fun _ => 0),
   fun _ _ data => if data.length = 1 then .error "boom" else .ok data,
   fun raw => .ok (raw.map fun _ => ⟨true, []⟩)⟩

/-- A concrete configuration with batch size 2. -/
def cfgW : MulticallConfig := NewMulticallConfig 7 9 2 5

/-- The same configuration with batch size 100. -/
def cfgW100 : MulticallConfig := NewMulticallConfig 7 9 100 5

/-- A concrete three-element request list. -/
def callsW : List CallRequest :=
  [NewCallRequest 1 [1] true, NewCallRequest 2 [2] false, NewCallRequest 3 [3] true]

/-- C9: NewDefaultMulticallConfig stores the given client and multicall
    address, batch size 100 and timeout 30 seconds. -/
theorem newDefaultConfig_fields (client multicallAddress : Nat) :
    (NewDefaultMulticallConfig client multicallAddress).Client = client ∧
    (NewDefaultMulticallConfig client multicallAddress).MulticallAddress = multicallAddress ∧
    (NewDefaultMulticallConfig client multicallAddress).BatchSize = 100 ∧
    (NewDefaultMulticallConfig client multicallAddress).Timeout = 30 * timeSecond := by
  refine ⟨rfl, rfl, rfl, rfl⟩

/-- C5: on an empty request list MulticallRaw returns an empty result list
    with no error and issues zero remote invocations, for every environment,
    configuration and fuel. -/
theorem empty_calls_no_remote (env : Env) (cfg : MulticallConfig) (fuel : Nat) :
    MulticallRaw env cfg [] fuel = (Outcome.ok [], []) := by
  cases fuel <;> simp [MulticallRaw, mcLoop]

lemma storeAll_eq (resp : List CallResult) :
    ∀ (results : List CallResult) (i : Nat),
      i + resp.length ≤ results.length →
      storeAll results i resp
        = some (results.take i ++ resp ++ results.drop (i + resp.length)) := by
  induction resp with
  | nil =>
      intro results i h
      simp [storeAll]
  | cons r rest ih =>
      intro results i h
      have hi : i < results.length := by
        simp only [List.length_cons] at h; omega
      rw [storeAll, if_pos hi,
        ih (results.set i r) (i + 1) (by simp; simp only [List.length_cons] at h; omega)]
      have htake : (results.set i r).take (i + 1) = results.take i ++ [r] := by
        rw [List.set_eq_take_cons_drop r hi]
        have harith : i + 1 = (List.take i results).length + (0 + 1) := by
          simp; omega
        rw [harith, List.take_append]
        simp
      have hdrop : (results.set i r).drop (i + 1 + rest.length)
          = results.drop (i + (rest.length + 1)) := by
        rw [List.drop_set_of_lt _ _ (by omega)]
        congr 1
        omega
      rw [htake, hdrop]
      simp

lemma storeAll_length (resp : List CallResult) :
    ∀ (results : List CallResult) (i : Nat) (results' : List CallResult),
      storeAll results i resp = some results' → results'.length = results.length := by
  induction resp with
  | nil =>
      intro results i results' h
      simp [storeAll] at h
      rw [← h]
  | cons r rest ih =>
      intro results i results' h
      rw [storeAll] at h
      by_cases hi : i < results.length
      · rw [if_pos hi] at h
        have := ih _ _ _ h
        simpa using this
      · rw [if_neg hi] at h
        cases h

lemma goSlice_batchAt (cfg : MulticallConfig) (calls : List CallRequest) (i : Int)
    (hb : 1 ≤ cfg.BatchSize) (h0 : 0 ≤ i) (hi : i < (calls.length : Int)) :
    goSlice calls i (min (i + cfg.BatchSize) (calls.length : Int))
      = some (batchAt cfg calls i) := by
  unfold goSlice batchAt
  rw [if_pos]
  exact ⟨h0, by omega, by omega⟩

lemma batchAt_length (cfg : MulticallConfig) (calls : List CallRequest) (i : Int)
    (h0 : 0 ≤ i) (hi : i < (calls.length : Int)) :
    (batchAt cfg calls i).length
      = (min (i + cfg.BatchSize) (calls.length : Int)).toNat - i.toNat := by
  unfold batchAt
  simp
  omega

lemma mcLoop_all_ok (env : Env) (cfg : MulticallConfig) (calls : List CallRequest)
    (ctx : Ctx) (f : CallRequest → CallResult)
    (hb : 1 ≤ cfg.BatchSize)
    (hchunk : ∀ (i : Int) (batch : List CallRequest),
      (chunkStep env ctx cfg.MulticallAddress i batch).1 = Except.ok (batch.map f)) :
    ∀ (fuel : Nat) (i : Int) (results : List CallResult) (trace : List Invocation),
      0 ≤ i →
      results.length = calls.length →
      calls.length ≤ i.toNat + fuel →
      results.take (min i.toNat calls.length)
        = (calls.map f).take (min i.toNat calls.length) →
      (mcLoop env cfg calls ctx fuel i results trace).1
        = Outcome.ok (calls.map f) := by
  intro fuel
  induction fuel with
  | zero =>
      intro i results trace h0 hlen hfuel hpre
      have hge : ¬ i < (calls.length : Int) := by omega
      have hmin : min i.toNat calls.length = calls.length := by omega
      rw [hmin] at hpre
      rw [List.take_of_length_le (by omega),
        List.take_of_length_le (by simp)] at hpre
      simp [mcLoop, hge, hpre]
  | succ fuel ih =>
      intro i results trace h0 hlen hfuel hpre
      by_cases hi : i < (calls.length : Int)
      · have hiN : i.toNat < calls.length := by omega
        rw [mcLoop, if_pos hi, goSlice_batchAt cfg calls i hb h0 hi]
        rcases hcs : chunkStep env ctx cfg.MulticallAddress i (batchAt cfg calls i)
          with ⟨res, invs⟩
        have hres : res = Except.ok ((batchAt cfg calls i).map f) := by
          have hh := hchunk i (batchAt cfg calls i)
          rw [hcs] at hh
          exact hh
        subst hres
        have hblen : ((batchAt cfg calls i).map f).length
            = (min (i + cfg.BatchSize) (calls.length : Int)).toNat - i.toNat := by
          rw [List.length_map, batchAt_length cfg calls i h0 hi]
        have hfit : i.toNat + ((batchAt cfg calls i).map f).length ≤ results.length := by
          rw [hblen, hlen]
          omega
        simp only [hcs, storeAll_eq _ _ _ hfit]
        apply ih
        · omega
        · simp only [List.length_append, List.length_take, List.length_drop]
          rw [List.length_map, batchAt_length cfg calls i h0 hi]
          omega
        · omega
        · -- prefix invariant at the new index i + BatchSize
          have hminI : min i.toNat calls.length = i.toNat := by omega
          rw [hminI] at hpre
          have heN : min (i + cfg.BatchSize).toNat calls.length
              = (min (i + cfg.BatchSize) (calls.length : Int)).toNat := by omega
          rw [heN]
          have hL : (min (i + cfg.BatchSize) (calls.length : Int)).toNat
              = i.toNat + ((batchAt cfg calls i).map f).length := by
            rw [hblen]; omega
          rw [hL, List.take_add, List.take_add]
          have hAlen : (results.take i.toNat).length = i.toNat := by
            simp; omega
          rw [List.append_assoc, List.take_left' hAlen, List.drop_left' hAlen,
            List.take_left' (by rfl)]
          have hmapB : (batchAt cfg calls i).map f
              = ((calls.map f).drop i.toNat).take
                  ((min (i + cfg.BatchSize) (calls.length : Int)) - i).toNat := by
            unfold batchAt
            rw [List.map_take, List.map_drop]
          have hMpre : (calls.map f).take i.toNat = results.take i.toNat := hpre.symm
          rw [hMpre, hmapB]
          congr 1
          rw [List.length_take]
          rcases le_or_lt ((min (i + cfg.BatchSize) (calls.length : Int)) - i).toNat
            ((calls.map f).drop i.toNat).length with hle | hlt
          · rw [min_eq_left hle]
          · rw [min_eq_right (le_of_lt hlt), List.take_of_length_le (le_of_lt hlt),
              List.take_length]
      · rw [mcLoop, if_neg hi]
        have hmin : min i.toNat calls.length = calls.length := by omega
        rw [hmin] at hpre
        rw [List.take_of_length_le (by omega),
          List.take_of_length_le (by simp)] at hpre
        simp [hpre]

lemma chunkStep_envOk (ctx : Ctx) (toAddr : Nat) (i : Int)
    (batch : List CallRequest) :
    (chunkStep envOk ctx toAddr i batch).1 = Except.ok (batch.map fOk) := by
  simp [chunkStep, envOk, List.map_map]
  induction batch with
  | nil => rfl
  | cons r rest ih => simpa [fOk, List.replicate_succ] using ih

/-- C1: with BatchSize at least 1, enough fuel, and an environment whose
    chunk pipeline decodes each batch to one result per call (given by a
    per-call function f), MulticallRaw succeeds and returns exactly one
    result per request, the result at index k being the decoded result for
    the request at index k, regardless of how the list length relates to
    BatchSize. -/
theorem multicall_results_match_calls (env : Env) (cfg : MulticallConfig)
    (calls : List CallRequest) (f : CallRequest → CallResult) (fuel : Nat)
    (hb : 1 ≤ cfg.BatchSize)
    (hchunk : ∀ (i : Int) (batch : List CallRequest),
      (chunkStep env ⟨cfg.Timeout⟩ cfg.MulticallAddress i batch).1
        = Except.ok (batch.map f))
    (hfuel : calls.length ≤ fuel) :
    ∃ results, (MulticallRaw env cfg calls fuel).1 = Outcome.ok results ∧
      results.length = calls.length ∧
      ∀ k, k < calls.length →
        results.getD k CallResult.zero
          = f (calls.getD k (NewCallRequest 0 [] true)) := by
  refine ⟨calls.map f, ?_, by simp, ?_⟩
  · unfold MulticallRaw
    apply mcLoop_all_ok env cfg calls ⟨cfg.Timeout⟩ f hb hchunk fuel 0
      (List.replicate calls.length CallResult.zero) []
    · omega
    · simp
    · omega
    · simp
  · intro k hk
    have hk' : k < (calls.map f).length := by simpa using hk
    rw [List.getD_eq_getElem _ _ hk', List.getD_eq_getElem _ _ hk]
    simp

/-- Witness for C1 at a concrete environment, configuration (batch size 2)
    and three-element request list. -/
theorem multicall_results_match_calls_check :
    ∃ results, (MulticallRaw envOk cfgW callsW 3).1 = Outcome.ok results ∧
      results.length = callsW.length ∧
      ∀ k, k < callsW.length →
        results.getD k CallResult.zero
          = fOk (callsW.getD k (NewCallRequest 0 [] true)) :=
  multicall_results_match_calls envOk cfgW callsW fOk 3 (by decide)
    (fun i batch => chunkStep_envOk ⟨cfgW.Timeout⟩ cfgW.MulticallAddress i batch)
    (by decide)

/-- C6: batching transparency — for a fixed request list and a fixed
    per-call remote behaviour, MulticallRaw returns the same result sequence
    for any two configurations that differ only in BatchSize (both at least
    1), given enough fuel for each. -/
theorem batching_transparency (env : Env) (cfg1 cfg2 : MulticallConfig)
    (calls : List CallRequest) (f : CallRequest → CallResult)
    (fuel1 fuel2 : Nat)
    (hb1 : 1 ≤ cfg1.BatchSize) (hb2 : 1 ≤ cfg2.BatchSize)
    (haddr : cfg1.MulticallAddress = cfg2.MulticallAddress)
    (htime : cfg1.Timeout = cfg2.Timeout)
    (hchunk : ∀ (i : Int) (batch : List CallRequest),
      (chunkStep env ⟨cfg1.Timeout⟩ cfg1.MulticallAddress i batch).1
        = Except.ok (batch.map f))
    (hfuel1 : calls.length ≤ fuel1) (hfuel2 : calls.length ≤ fuel2) :
    (MulticallRaw env cfg1 calls fuel1).1 = (MulticallRaw env cfg2 calls fuel2).1 := by
  have h1 : (MulticallRaw env cfg1 calls fuel1).1 = Outcome.ok (calls.map f) := by
    unfold MulticallRaw
    apply mcLoop_all_ok env cfg1 calls ⟨cfg1.Timeout⟩ f hb1 hchunk fuel1 0
      (List.replicate calls.length CallResult.zero) []
    · omega
    · simp
    · omega
    · simp
  have h2 : (MulticallRaw env cfg2 calls fuel2).1 = Outcome.ok (calls.map f) := by
    unfold MulticallRaw
    apply mcLoop_all_ok env cfg2 calls ⟨cfg2.Timeout⟩ f hb2 ?_ fuel2 0
      (List.replicate calls.length CallResult.zero) []
    · omega
    · simp
    · omega
    · simp
    · intro i batch
      rw [← haddr, ← htime]
      exact hchunk i batch
  rw [h1, h2]

/-- Witness for C6: batch size 2 versus batch size 100 on the same
    three-element request list and environment. -/
theorem batching_transparency_check :
    (MulticallRaw envOk cfgW callsW 3).1 = (MulticallRaw envOk cfgW100 callsW 3).1 :=
  batching_transparency envOk cfgW cfgW100 callsW fOk 3 3 (by decide) (by decide)
    rfl rfl
    (fun i batch => chunkStep_envOk ⟨cfgW.Timeout⟩ cfgW.MulticallAddress i batch)
    (by decide) (by decide)

lemma chunkStep_ok_invs (env : Env) (ctx : Ctx) (toAddr : Nat) (i : Int)
    (batch : List CallRequest) (resp : List CallResult)
    (h : (chunkStep env ctx toAddr i batch).1 = Except.ok resp) :
    ∃ cd, (chunkStep env ctx toAddr i batch).2
      = [⟨ctx, toAddr, cd, i, batch.length⟩] := by
  unfold chunkStep at h ⊢
  rcases hp : env.pack batch with e | cd
  · simp only [hp] at h
    simp at h
  · simp only [hp] at h ⊢
    rcases hc : env.callContract ctx toAddr cd with e | raw
    · simp only [hc] at h
      simp at h
    · simp only [hc] at h ⊢
      rcases hu : env.unpack raw with e | resp'
      · simp only [hu] at h
        simp at h
      · simp only [hu] at h ⊢
        exact ⟨cd, rfl⟩

lemma chunkStep_mem_ctx (env : Env) (ctx : Ctx) (toAddr : Nat) (i : Int)
    (batch : List CallRequest) (inv : Invocation)
    (h : inv ∈ (chunkStep env ctx toAddr i batch).2) : inv.ctx = ctx := by
  unfold chunkStep at h
  rcases hp : env.pack batch with e | cd
  · simp only [hp] at h
    simp at h
  · simp only [hp] at h
    rcases hc : env.callContract ctx toAddr cd with e | raw
    · simp only [hc] at h
      simp at h
      rw [h]
    · simp only [hc] at h
      rcases hu : env.unpack raw with e | resp'
      · simp only [hu] at h
        simp at h
        rw [h]
      · simp only [hu] at h
        simp at h
        rw [h]

lemma mcLoop_ctx (env : Env) (cfg : MulticallConfig) (calls : List CallRequest)
    (ctx : Ctx) :
    ∀ (fuel : Nat) (i : Int) (results : List CallResult)
      (trace : List Invocation),
      (∀ inv ∈ trace, inv.ctx = ctx) →
      ∀ inv ∈ (mcLoop env cfg calls ctx fuel i results trace).2, inv.ctx = ctx := by
  intro fuel
  induction fuel with
  | zero =>
      intro i results trace h inv hm
      rw [mcLoop] at hm
      by_cases hi : i < (calls.length : Int)
      · rw [if_pos hi] at hm
        exact h inv hm
      · rw [if_neg hi] at hm
        exact h inv hm
  | succ fuel ih =>
      intro i results trace h inv hm
      rw [mcLoop] at hm
      by_cases hi : i < (calls.length : Int)
      · rw [if_pos hi] at hm
        rcases hgs : goSlice calls i (min (i + cfg.BatchSize) (calls.length : Int))
          with _ | batch
        · simp only [hgs] at hm
          exact h inv hm
        · simp only [hgs] at hm
          rcases hcs : chunkStep env ctx cfg.MulticallAddress i batch with ⟨res, invs⟩
          have hinvs : ∀ inv' ∈ trace ++ invs, inv'.ctx = ctx := by
            intro inv' hmem
            rcases List.mem_append.1 hmem with hmem | hmem
            · exact h inv' hmem
            · apply chunkStep_mem_ctx env ctx cfg.MulticallAddress i batch inv'
              rw [hcs]
              exact hmem
          cases res with
          | error se =>
              simp only [hcs] at hm
              exact hinvs inv hm
          | ok response =>
              simp only [hcs] at hm
              rcases hsa : storeAll results i.toNat response with _ | results'
              · simp only [hsa] at hm
                exact hinvs inv hm
              · simp only [hsa] at hm
                exact ih (i + cfg.BatchSize) results' (trace ++ invs) hinvs inv hm
      · rw [if_neg hi] at hm
        exact h inv hm

/-- C8: every remote invocation recorded during one MulticallRaw run carries
    the deadline context built from cfg.Timeout, so all chunks share one
    deadline that is never reset between chunks. -/
theorem shared_deadline_context (env : Env) (cfg : MulticallConfig)
    (calls : List CallRequest) (fuel : Nat) (inv : Invocation)
    (hmem : inv ∈ (MulticallRaw env cfg calls fuel).2) :
    inv.ctx = ⟨cfg.Timeout⟩ ∧
    ∀ inv', inv' ∈ (MulticallRaw env cfg calls fuel).2 → inv.ctx = inv'.ctx := by
  have hall := mcLoop_ctx env cfg calls ⟨cfg.Timeout⟩ fuel 0
    (List.replicate calls.length CallResult.zero) [] (by simp)
  simp only [MulticallRaw] at hmem ⊢
  exact ⟨hall inv hmem, fun inv' h' => by rw [hall inv hmem, hall inv' h']⟩

/-- Witness for C8: the first invocation of a concrete run carries the
    context built from the configured timeout. -/
theorem shared_deadline_context_check :
    (⟨⟨5⟩, 9, [0, 0], 0, 2⟩ : Invocation).ctx = ⟨cfgW.Timeout⟩ ∧
    ∀ inv', inv' ∈ (MulticallRaw envOk cfgW callsW 3).2 →
      (⟨⟨5⟩, 9, [0, 0], 0, 2⟩ : Invocation).ctx = inv'.ctx :=
  shared_deadline_context envOk cfgW callsW 3 ⟨⟨5⟩, 9, [0, 0], 0, 2⟩ (by decide)

lemma mcLoop_no_diverge (env : Env) (cfg : MulticallConfig)
    (calls : List CallRequest) (ctx : Ctx) (hb : 1 ≤ cfg.BatchSize) :
    ∀ (fuel : Nat) (i : Int) (results : List CallResult)
      (trace : List Invocation),
      0 ≤ i → calls.length ≤ i.toNat + fuel →
      (mcLoop env cfg calls ctx fuel i results trace).1 ≠ Outcome.diverge := by
  intro fuel
  induction fuel with
  | zero =>
      intro i results trace h0 hf
      have hge : ¬ i < (calls.length : Int) := by omega
      simp [mcLoop, hge]
  | succ fuel ih =>
      intro i results trace h0 hf
      rw [mcLoop]
      by_cases hi : i < (calls.length : Int)
      · rw [if_pos hi]
        rcases hgs : goSlice calls i (min (i + cfg.BatchSize) (calls.length : Int))
          with _ | batch
        · simp
        · rcases hcs : chunkStep env ctx cfg.MulticallAddress i batch with ⟨res, invs⟩
          cases res with
          | error se => simp [hcs]
          | ok response =>
              rcases hsa : storeAll results i.toNat response with _ | results'
              · simp [hcs, hsa]
              · simp only [hcs, hsa]
                exact ih (i + cfg.BatchSize) results' (trace ++ invs)
                  (by omega) (by omega)
      · rw [if_neg hi]
        simp

/-- C10: with BatchSize at least 1 and fuel at least the number of calls,
    the chunk loop of MulticallRaw terminates — the embedding never reports
    fuel exhaustion, for any environment. -/
theorem multicall_terminates (env : Env) (cfg : MulticallConfig)
    (calls : List CallRequest) (fuel : Nat)
    (hb : 1 ≤ cfg.BatchSize) (hfuel : calls.length ≤ fuel) :
    (MulticallRaw env cfg calls fuel).1 ≠ Outcome.diverge := by
  unfold MulticallRaw
  apply mcLoop_no_diverge env cfg calls ⟨cfg.Timeout⟩ hb fuel 0
    (List.replicate calls.length CallResult.zero) []
  · omega
  · omega

/-- Witness for C10 at a concrete run. -/
theorem multicall_terminates_check :
    (MulticallRaw envOk cfgW callsW 3).1 ≠ Outcome.diverge :=
  multicall_terminates envOk cfgW callsW 3 (by decide) (by decide)

lemma mcLoop_zero_batch_diverges :
    ∀ (fuel : Nat) (trace : List Invocation),
      (mcLoop envOk (NewMulticallConfig 0 0 0 0) [NewCallRequest 1 [1] true]
        ⟨(NewMulticallConfig 0 0 0 0).Timeout⟩ fuel 0
        (List.replicate 1 CallResult.zero) trace).1 = Outcome.diverge := by
  intro fuel
  induction fuel with
  | zero =>
      intro trace
      simp [mcLoop]
  | succ fuel ih =>
      intro trace
      rw [mcLoop]
      rw [if_pos (by norm_num)]
      have hgs : goSlice [NewCallRequest 1 [1] true] 0
          (min ((0 : Int) + (NewMulticallConfig 0 0 0 0).BatchSize)
            (([NewCallRequest 1 [1] true].length : Nat) : Int)) = some [] := by
        decide
      simp only [hgs]
      have hcs : chunkStep envOk ⟨(NewMulticallConfig 0 0 0 0).Timeout⟩
          (NewMulticallConfig 0 0 0 0).MulticallAddress 0 ([] : List CallRequest)
          = (Except.ok ([] : List CallResult),
             [⟨⟨(NewMulticallConfig 0 0 0 0).Timeout⟩,
               (NewMulticallConfig 0 0 0 0).MulticallAddress, [], 0, 0⟩]) := rfl
      simp only [hcs]
      have hsa : storeAll (List.replicate 1 CallResult.zero) (0 : Int).toNat
          ([] : List CallResult) = some (List.replicate 1 CallResult.zero) := rfl
      simp only [hsa]
      have hz : (0 : Int) + (NewMulticallConfig 0 0 0 0).BatchSize = 0 := by decide
      rw [hz]
      exact ih _

/-- C2 (exhibit of the code bug): NewMulticallConfig neither rejects nor
    clamps a batch size of 0, and MulticallRaw with BatchSize 0 on a
    one-element request list makes no progress — the chunk loop runs forever
    (the embedding reports fuel exhaustion for every fuel). -/
theorem batchsize_zero_not_rejected_loops :
    (NewMulticallConfig 0 0 0 0).BatchSize = 0 ∧
    ∀ fuel : Nat,
      (MulticallRaw envOk (NewMulticallConfig 0 0 0 0)
        [NewCallRequest 1 [1] true] fuel).1 = Outcome.diverge := by
  refine ⟨rfl, ?_⟩
  intro fuel
  unfold MulticallRaw
  exact mcLoop_zero_batch_diverges fuel []

lemma loopRanges_getD (b : Int) (N : Nat) :
    ∀ (fuel : Nat) (i : Int) (k : Nat),
      k < (loopRanges b N fuel i).length →
      (loopRanges b N fuel i).getD k ((0 : Int), (0 : Int))
        = (i + (k : Int) * b, min (i + ((k : Int) + 1) * b) (N : Int)) := by
  intro fuel
  induction fuel with
  | zero =>
      intro i k hk
      simp [loopRanges] at hk
  | succ fuel ih =>
      intro i k hk
      rw [loopRanges] at hk ⊢
      by_cases hi : i < (N : Int)
      · rw [if_pos hi] at hk ⊢
        cases k with
        | zero =>
            simp only [List.getD_cons_zero]
            congr 1
            · push_cast
              ring
            · congr 1
              push_cast
              ring
        | succ k =>
            simp only [List.getD_cons_succ]
            rw [ih (i + b) k (by simpa using hk)]
            congr 1
            · push_cast
              ring
            · congr 1
              push_cast
              ring
      · rw [if_neg hi] at hk
        simp at hk

lemma loopRanges_length_iff (b : Int) (N : Nat) (hb : 1 ≤ b) :
    ∀ (fuel : Nat) (i : Int) (k : Nat), 0 ≤ i → N ≤ i.toNat + fuel →
      (k < (loopRanges b N fuel i).length ↔ i + (k : Int) * b < (N : Int)) := by
  intro fuel
  induction fuel with
  | zero =>
      intro i k h0 hf
      simp only [loopRanges, List.length_nil]
      have hkb : (0 : Int) ≤ (k : Int) * b :=
        mul_nonneg (Int.natCast_nonneg k) (by omega)
      have hiN : (N : Int) ≤ i := by omega
      constructor
      · intro h
        omega
      · intro h
        linarith
  | succ fuel ih =>
      intro i k h0 hf
      rw [loopRanges]
      by_cases hi : i < (N : Int)
      · rw [if_pos hi]
        cases k with
        | zero => simpa using hi
        | succ k =>
            simp only [List.length_cons, Nat.succ_lt_succ_iff]
            rw [ih (i + b) k (by omega) (by omega)]
            constructor <;> intro h <;> (push_cast at h ⊢; linarith)
      · rw [if_neg hi]
        simp only [List.length_nil]
        have hkb : (0 : Int) ≤ (k : Int) * b :=
          mul_nonneg (Int.natCast_nonneg k) (by omega)
        constructor
        · intro h
          omega
        · intro h
          linarith

lemma mcLoop_trace_ranges (env : Env) (cfg : MulticallConfig)
    (calls : List CallRequest) (ctx : Ctx) (f : CallRequest → CallResult)
    (hb : 1 ≤ cfg.BatchSize)
    (hchunk : ∀ (i : Int) (batch : List CallRequest),
      (chunkStep env ctx cfg.MulticallAddress i batch).1 = Except.ok (batch.map f)) :
    ∀ (fuel : Nat) (i : Int) (results : List CallResult)
      (trace : List Invocation),
      0 ≤ i → results.length = calls.length →
      ((mcLoop env cfg calls ctx fuel i results trace).2).map rangeOf
        = trace.map rangeOf ++ loopRanges cfg.BatchSize calls.length fuel i := by
  intro fuel
  induction fuel with
  | zero =>
      intro i results trace h0 hlen
      rw [mcLoop, loopRanges]
      by_cases hi : i < (calls.length : Int)
      · simp [hi]
      · simp [hi]
  | succ fuel ih =>
      intro i results trace h0 hlen
      rw [mcLoop, loopRanges]
      by_cases hi : i < (calls.length : Int)
      · rw [if_pos hi, if_pos hi, goSlice_batchAt cfg calls i hb h0 hi]
        rcases hcs : chunkStep env ctx cfg.MulticallAddress i (batchAt cfg calls i)
          with ⟨res, invs⟩
        have hres : res = Except.ok ((batchAt cfg calls i).map f) := by
          have hh := hchunk i (batchAt cfg calls i)
          rw [hcs] at hh
          exact hh
        subst hres
        obtain ⟨cd, hinvs⟩ := chunkStep_ok_invs env ctx cfg.MulticallAddress i
          (batchAt cfg calls i) ((batchAt cfg calls i).map f) (by rw [hcs])
        rw [hcs] at hinvs
        have hinvs' : invs = [⟨ctx, cfg.MulticallAddress, cd, i,
            (batchAt cfg calls i).length⟩] := hinvs
        have hblen : ((batchAt cfg calls i).map f).length
            = (min (i + cfg.BatchSize) (calls.length : Int)).toNat - i.toNat := by
          rw [List.length_map, batchAt_length cfg calls i h0 hi]
        have hfit : i.toNat + ((batchAt cfg calls i).map f).length ≤ results.length := by
          rw [hblen, hlen]
          omega
        simp only [hcs, storeAll_eq _ _ _ hfit]
        rw [ih (i + cfg.BatchSize) _ (trace ++ invs) (by omega)
          (by
            simp only [List.length_append, List.length_take, List.length_drop]
            rw [List.length_map, batchAt_length cfg calls i h0 hi]
            omega)]
        rw [List.map_append, hinvs']
        have harith : i + (((batchAt cfg calls i).length : Nat) : Int)
            = min (i + cfg.BatchSize) (calls.length : Int) := by
          rw [batchAt_length cfg calls i h0 hi]
          omega
        simp [rangeOf, harith]
      · rw [if_neg hi, if_neg hi]
        simp

lemma loopRanges_partition (b : Int) (N fuel : Nat) (hb : 1 ≤ b)
    (hfuel : N ≤ fuel) :
    (loopRanges b N fuel 0 = [] ↔ N = 0) ∧
    (0 < (loopRanges b N fuel 0).length →
      ((loopRanges b N fuel 0).getD 0 ((0 : Int), (0 : Int))).1 = 0 ∧
      ((loopRanges b N fuel 0).getD ((loopRanges b N fuel 0).length - 1)
        ((0 : Int), (0 : Int))).2 = (N : Int)) ∧
    (∀ k, k + 1 < (loopRanges b N fuel 0).length →
      ((loopRanges b N fuel 0).getD k ((0 : Int), (0 : Int))).2
        = ((loopRanges b N fuel 0).getD (k + 1) ((0 : Int), (0 : Int))).1) ∧
    (∀ k, k < (loopRanges b N fuel 0).length →
      ((loopRanges b N fuel 0).getD k ((0 : Int), (0 : Int))).1
        < ((loopRanges b N fuel 0).getD k ((0 : Int), (0 : Int))).2 ∧
      ((loopRanges b N fuel 0).getD k ((0 : Int), (0 : Int))).2
        - ((loopRanges b N fuel 0).getD k ((0 : Int), (0 : Int))).1 ≤ b) ∧
    (∀ k, k + 1 < (loopRanges b N fuel 0).length →
      ((loopRanges b N fuel 0).getD k ((0 : Int), (0 : Int))).2
        - ((loopRanges b N fuel 0).getD k ((0 : Int), (0 : Int))).1 = b) := by
  have hiff : ∀ k : Nat, k < (loopRanges b N fuel 0).length ↔
      (0 : Int) + (k : Int) * b < (N : Int) :=
    fun k => loopRanges_length_iff b N hb fuel 0 k le_rfl (by omega)
  have hget := loopRanges_getD b N fuel 0
  refine ⟨?_, ?_, ?_, ?_, ?_⟩
  · constructor
    · intro hL
      by_contra hN
      have h0 : 0 < (loopRanges b N fuel 0).length :=
        (hiff 0).mpr (by simp; omega)
      rw [hL] at h0
      simp at h0
    · intro hN
      have h0 : ¬ 0 < (loopRanges b N fuel 0).length := by
        rw [hiff 0]
        simp
        omega
      cases hL : loopRanges b N fuel 0 with
      | nil => rfl
      | cons a t =>
          rw [hL] at h0
          simp at h0
  · intro hpos
    constructor
    · rw [hget 0 hpos]
      simp
    · have hk : (loopRanges b N fuel 0).length - 1 < (loopRanges b N fuel 0).length := by
        omega
      rw [hget _ hk]
      dsimp only
      have hgeN : (N : Int) ≤ 0 + ((loopRanges b N fuel 0).length : Int) * b := by
        by_contra hc
        push_neg at hc
        have := (hiff (loopRanges b N fuel 0).length).mpr hc
        omega
      have hcast : ((((loopRanges b N fuel 0).length - 1 : Nat)) : Int) + 1
          = (((loopRanges b N fuel 0).length : Nat) : Int) := by omega
      rw [hcast]
      rw [min_eq_right (by linarith)]
  · intro k hk1
    have hk : k < (loopRanges b N fuel 0).length := by omega
    rw [hget k hk, hget (k + 1) hk1]
    dsimp only
    have hlt : (0 : Int) + ((k + 1 : Nat) : Int) * b < (N : Int) := (hiff (k + 1)).mp hk1
    push_cast at hlt ⊢
    rw [min_eq_left (by linarith)]
  · intro k hk
    rw [hget k hk]
    dsimp only
    have hltN : (0 : Int) + (k : Int) * b < (N : Int) := (hiff k).mp hk
    have hexp : ((k : Int) + 1) * b = (k : Int) * b + b := by ring
    constructor
    · rw [lt_min_iff]
      constructor
      · linarith
      · linarith
    · have hmle : min ((0 : Int) + ((k : Int) + 1) * b) (N : Int)
          ≤ (0 : Int) + ((k : Int) + 1) * b := min_le_left _ _
      linarith
  · intro k hk1
    have hk : k < (loopRanges b N fuel 0).length := by omega
    rw [hget k hk]
    dsimp only
    have hlt : (0 : Int) + ((k + 1 : Nat) : Int) * b < (N : Int) := (hiff (k + 1)).mp hk1
    push_cast at hlt ⊢
    rw [min_eq_left (by linarith)]
    ring

/-- C3: for BatchSize at least 1 and a successful run, the chunk loop of
    MulticallRaw traverses the index ranges recorded in its invocation
    trace, and these partition the interval from 0 to the number of calls:
    the first range starts at 0, consecutive ranges meet with no gap or
    overlap, the last range ends at the number of calls, every range is
    nonempty of length at most BatchSize, and every range except possibly
    the final one has length exactly BatchSize. -/
theorem chunk_ranges_partition (env : Env) (cfg : MulticallConfig)
    (calls : List CallRequest) (f : CallRequest → CallResult) (fuel : Nat)
    (rs : List (Int × Int))
    (hb : 1 ≤ cfg.BatchSize)
    (hchunk : ∀ (i : Int) (batch : List CallRequest),
      (chunkStep env ⟨cfg.Timeout⟩ cfg.MulticallAddress i batch).1
        = Except.ok (batch.map f))
    (hfuel : calls.length ≤ fuel)
    (hrs : ((MulticallRaw env cfg calls fuel).2).map rangeOf = rs) :
    (rs = [] ↔ calls.length = 0) ∧
    (0 < rs.length → (rs.getD 0 ((0 : Int), (0 : Int))).1 = 0 ∧
      (rs.getD (rs.length - 1) ((0 : Int), (0 : Int))).2 = (calls.length : Int)) ∧
    (∀ k, k + 1 < rs.length →
      (rs.getD k ((0 : Int), (0 : Int))).2 = (rs.getD (k + 1) ((0 : Int), (0 : Int))).1) ∧
    (∀ k, k < rs.length →
      (rs.getD k ((0 : Int), (0 : Int))).1 < (rs.getD k ((0 : Int), (0 : Int))).2 ∧
      (rs.getD k ((0 : Int), (0 : Int))).2 - (rs.getD k ((0 : Int), (0 : Int))).1
        ≤ cfg.BatchSize) ∧
    (∀ k, k + 1 < rs.length →
      (rs.getD k ((0 : Int), (0 : Int))).2 - (rs.getD k ((0 : Int), (0 : Int))).1
        = cfg.BatchSize) := by
  have htr : ((MulticallRaw env cfg calls fuel).2).map rangeOf
      = loopRanges cfg.BatchSize calls.length fuel 0 := by
    unfold MulticallRaw
    have hh := mcLoop_trace_ranges env cfg calls ⟨cfg.Timeout⟩ f hb hchunk fuel 0
      (List.replicate calls.length CallResult.zero) [] le_rfl (by simp)
    simpa using hh
  subst hrs
  rw [htr]
  exact loopRanges_partition cfg.BatchSize calls.length fuel hb hfuel

/-- Witness for C3: batch size 2 over three calls yields the ranges
    (0,2) and (2,3). -/
theorem chunk_ranges_partition_check :
    (([((0 : Int), (2 : Int)), ((2 : Int), (3 : Int))] : List (Int × Int)) = []
        ↔ callsW.length = 0) ∧
    (0 < ([((0 : Int), (2 : Int)), ((2 : Int), (3 : Int))] : List (Int × Int)).length →
      (([((0 : Int), (2 : Int)), ((2 : Int), (3 : Int))] : List (Int × Int)).getD 0
          ((0 : Int), (0 : Int))).1 = 0 ∧
      (([((0 : Int), (2 : Int)), ((2 : Int), (3 : Int))] : List (Int × Int)).getD
          (([((0 : Int), (2 : Int)), ((2 : Int), (3 : Int))] : List (Int × Int)).length - 1)
          ((0 : Int), (0 : Int))).2 = (callsW.length : Int)) ∧
    (∀ k, k + 1 < ([((0 : Int), (2 : Int)), ((2 : Int), (3 : Int))] : List (Int × Int)).length →
      (([((0 : Int), (2 : Int)), ((2 : Int), (3 : Int))] : List (Int × Int)).getD k
          ((0 : Int), (0 : Int))).2
        = (([((0 : Int), (2 : Int)), ((2 : Int), (3 : Int))] : List (Int × Int)).getD (k + 1)
          ((0 : Int), (0 : Int))).1) ∧
    (∀ k, k < ([((0 : Int), (2 : Int)), ((2 : Int), (3 : Int))] : List (Int × Int)).length →
      (([((0 : Int), (2 : Int)), ((2 : Int), (3 : Int))] : List (Int × Int)).getD k
          ((0 : Int), (0 : Int))).1
        < (([((0 : Int), (2 : Int)), ((2 : Int), (3 : Int))] : List (Int × Int)).getD k
          ((0 : Int), (0 : Int))).2 ∧
      (([((0 : Int), (2 : Int)), ((2 : Int), (3 : Int))] : List (Int × Int)).getD k
          ((0 : Int), (0 : Int))).2
        - (([((0 : Int), (2 : Int)), ((2 : Int), (3 : Int))] : List (Int × Int)).getD k
          ((0 : Int), (0 : Int))).1 ≤ cfgW.BatchSize) ∧
    (∀ k, k + 1 < ([((0 : Int), (2 : Int)), ((2 : Int), (3 : Int))] : List (Int × Int)).length →
      (([((0 : Int), (2 : Int)), ((2 : Int), (3 : Int))] : List (Int × Int)).getD k
          ((0 : Int), (0 : Int))).2
        - (([((0 : Int), (2 : Int)), ((2 : Int), (3 : Int))] : List (Int × Int)).getD k
          ((0 : Int), (0 : Int))).1 = cfgW.BatchSize) :=
  chunk_ranges_partition envOk cfgW callsW fOk 3 [((0 : Int), (2 : Int)), ((2 : Int), (3 : Int))]
    (by decide)
    (fun i batch => chunkStep_envOk ⟨cfgW.Timeout⟩ cfgW.MulticallAddress i batch)
    (by decide) (by decide)

lemma mcLoop_err_origin (env : Env) (cfg : MulticallConfig)
    (calls : List CallRequest) (ctx : Ctx) (hb : 1 ≤ cfg.BatchSize) :
    ∀ (fuel : Nat) (i : Int) (results : List CallResult)
      (trace : List Invocation) (e : MCError),
      0 ≤ i → (∃ k : Nat, i = (k : Int) * cfg.BatchSize) →
      (mcLoop env cfg calls ctx fuel i results trace).1 = Outcome.err e →
      0 ≤ e.index ∧ e.index < (calls.length : Int) ∧
      (∃ k : Nat, e.index = (k : Int) * cfg.BatchSize) ∧
      (chunkStep env ctx cfg.MulticallAddress e.index
        (batchAt cfg calls e.index)).1 = Except.error (e.stage, e.underlying) := by
  intro fuel
  induction fuel with
  | zero =>
      intro i results trace e h0 hk herr
      rw [mcLoop] at herr
      by_cases hi : i < (calls.length : Int)
      · rw [if_pos hi] at herr
        simp at herr
      · rw [if_neg hi] at herr
        simp at herr
  | succ fuel ih =>
      intro i results trace e h0 hk herr
      rw [mcLoop] at herr
      by_cases hi : i < (calls.length : Int)
      · rw [if_pos hi, goSlice_batchAt cfg calls i hb h0 hi] at herr
        rcases hcs : chunkStep env ctx cfg.MulticallAddress i (batchAt cfg calls i)
          with ⟨res, invs⟩
        cases res with
        | error se =>
            simp only [hcs] at herr
            simp only [Outcome.err.injEq] at herr
            refine ⟨?_, ?_, ?_, ?_⟩
            · rw [← herr]
              exact h0
            · rw [← herr]
              exact hi
            · rw [← herr]
              exact hk
            · rw [← herr]
              rw [hcs]
        | ok response =>
            simp only [hcs] at herr
            rcases hsa : storeAll results i.toNat response with _ | results'
            · simp only [hsa] at herr
              simp at herr
            · simp only [hsa] at herr
              apply ih (i + cfg.BatchSize) results' (trace ++ invs) e (by omega) ?_ herr
              rcases hk with ⟨k, hk⟩
              refine ⟨k + 1, ?_⟩
              rw [hk]
              push_cast
              ring
      · rw [if_neg hi] at herr
        simp at herr

/-- C7: every error MulticallRaw returns wraps the underlying collaborator
    error together with the start index of the offending chunk: the error's
    recorded index is a chunk start (a multiple of BatchSize inside the
    request list) and the chunk pipeline at exactly that index fails with
    the recorded stage and underlying error. -/
theorem error_identifies_chunk (env : Env) (cfg : MulticallConfig)
    (calls : List CallRequest) (fuel : Nat) (e : MCError)
    (hb : 1 ≤ cfg.BatchSize)
    (herr : (MulticallRaw env cfg calls fuel).1 = Outcome.err e) :
    0 ≤ e.index ∧ e.index < (calls.length : Int) ∧
    (∃ k : Nat, e.index = (k : Int) * cfg.BatchSize) ∧
    (chunkStep env ⟨cfg.Timeout⟩ cfg.MulticallAddress e.index
      (batchAt cfg calls e.index)).1 = Except.error (e.stage, e.underlying) := by
  unfold MulticallRaw at herr
  exact mcLoop_err_origin env cfg calls ⟨cfg.Timeout⟩ hb fuel 0
    (List.replicate calls.length CallResult.zero) [] e le_rfl
    ⟨0, by simp⟩ herr

/-- Witness for C7: with a remote that fails on the second chunk, the
    returned error records stage, chunk start index 2, and the underlying
    error string. -/
theorem error_identifies_chunk_check :
    0 ≤ (⟨Stage.calling, 2, "boom"⟩ : MCError).index ∧
    (⟨Stage.calling, 2, "boom"⟩ : MCError).index < (callsW.length : Int) ∧
    (∃ k : Nat, (⟨Stage.calling, 2, "boom"⟩ : MCError).index
      = (k : Int) * cfgW.BatchSize) ∧
    (chunkStep envFail ⟨cfgW.Timeout⟩ cfgW.MulticallAddress
      (⟨Stage.calling, 2, "boom"⟩ : MCError).index
      (batchAt cfgW callsW (⟨Stage.calling, 2, "boom"⟩ : MCError).index)).1
      = Except.error ((⟨Stage.calling, 2, "boom"⟩ : MCError).stage,
          (⟨Stage.calling, 2, "boom"⟩ : MCError).underlying) :=
  error_identifies_chunk envFail cfgW callsW 3 ⟨Stage.calling, 2, "boom"⟩
    (by decide) (by decide)

lemma mcLoop_ok_length (env : Env) (cfg : MulticallConfig)
    (calls : List CallRequest) (ctx : Ctx) :
    ∀ (fuel : Nat) (i : Int) (results : List CallResult)
      (trace : List Invocation) (rs : List CallResult),
      results.length = calls.length →
      (mcLoop env cfg calls ctx fuel i results trace).1 = Outcome.ok rs →
      rs.length = calls.length := by
  intro fuel
  induction fuel with
  | zero =>
      intro i results trace rs hlen h
      rw [mcLoop] at h
      by_cases hi : i < (calls.length : Int)
      · rw [if_pos hi] at h
        simp at h
      · rw [if_neg hi] at h
        simp only [Outcome.ok.injEq] at h
        rw [← h]
        exact hlen
  | succ fuel ih =>
      intro i results trace rs hlen h
      rw [mcLoop] at h
      by_cases hi : i < (calls.length : Int)
      · rw [if_pos hi] at h
        rcases hgs : goSlice calls i (min (i + cfg.BatchSize) (calls.length : Int))
          with _ | batch
        · simp only [hgs] at h
          simp at h
        · simp only [hgs] at h
          rcases hcs : chunkStep env ctx cfg.MulticallAddress i batch with ⟨res, invs⟩
          cases res with
          | error se =>
              simp only [hcs] at h
              simp at h
          | ok response =>
              simp only [hcs] at h
              rcases hsa : storeAll results i.toNat response with _ | results'
              · simp only [hsa] at h
                simp at h
              · simp only [hsa] at h
                have hlen' : results'.length = calls.length := by
                  rw [storeAll_length response results i.toNat results' hsa]
                  exact hlen
                exact ih (i + cfg.BatchSize) results' (trace ++ invs) rs hlen' h
      · rw [if_neg hi] at h
        simp only [Outcome.ok.injEq] at h
        rw [← h]
        exact hlen

lemma mcLoop_first_failure (env : Env) (cfg : MulticallConfig)
    (calls : List CallRequest) (ctx : Ctx) (hb : 1 ≤ cfg.BatchSize) :
    ∀ (k0 fuel : Nat) (i : Int) (results : List CallResult)
      (trace : List Invocation) (i0 : Int) (s : Stage) (e0 : String),
      0 ≤ i → results.length = calls.length →
      i0 = i + (k0 : Int) * cfg.BatchSize → i0 < (calls.length : Int) →
      (∀ k : Nat, k < k0 → ∃ resp,
        (chunkStep env ctx cfg.MulticallAddress (i + (k : Int) * cfg.BatchSize)
          (batchAt cfg calls (i + (k : Int) * cfg.BatchSize))).1 = Except.ok resp ∧
        resp.length = (batchAt cfg calls (i + (k : Int) * cfg.BatchSize)).length) →
      (chunkStep env ctx cfg.MulticallAddress i0 (batchAt cfg calls i0)).1
        = Except.error (s, e0) →
      k0 < fuel →
      (mcLoop env cfg calls ctx fuel i results trace).1 = Outcome.err ⟨s, i0, e0⟩ := by
  intro k0
  induction k0 with
  | zero =>
      intro fuel i results trace i0 s e0 h0 hlen hi0 hi0N hprev hfail hfuel
      have hii : i0 = i := by
        rw [hi0]
        push_cast
        ring
      subst hii
      cases fuel with
      | zero => omega
      | succ fuel =>
          rw [mcLoop, if_pos hi0N, goSlice_batchAt cfg calls i0 hb h0 hi0N]
          rcases hcs : chunkStep env ctx cfg.MulticallAddress i0 (batchAt cfg calls i0)
            with ⟨res, invs⟩
          have hres : res = Except.error (s, e0) := by
            rw [hcs] at hfail
            exact hfail
          subst hres
          simp only [hcs]
  | succ k0 ih =>
      intro fuel i results trace i0 s e0 h0 hlen hi0 hi0N hprev hfail hfuel
      cases fuel with
      | zero => omega
      | succ fuel =>
          have hkb : (0 : Int) ≤ (k0 : Int) * cfg.BatchSize :=
            mul_nonneg (Int.natCast_nonneg k0) (by omega)
          have hstep : i0 = i + (k0 : Int) * cfg.BatchSize + cfg.BatchSize := by
            rw [hi0]
            push_cast
            ring
          have hiN : i < (calls.length : Int) := by linarith
          rw [mcLoop, if_pos hiN, goSlice_batchAt cfg calls i hb h0 hiN]
          obtain ⟨resp, hok, hresplen⟩ := hprev 0 (by omega)
          simp only [Nat.cast_zero, zero_mul, add_zero] at hok hresplen
          rcases hcs : chunkStep env ctx cfg.MulticallAddress i (batchAt cfg calls i)
            with ⟨res, invs⟩
          have hres : res = Except.ok resp := by
            rw [hcs] at hok
            exact hok
          subst hres
          have hfit : i.toNat + resp.length ≤ results.length := by
            rw [hresplen, batchAt_length cfg calls i h0 hiN, hlen]
            omega
          simp only [hcs, storeAll_eq _ _ _ hfit]
          apply ih fuel (i + cfg.BatchSize) _ (trace ++ invs) i0 s e0 (by omega) ?_ ?_
            hi0N ?_ hfail (by omega)
          · simp only [List.length_append, List.length_take, List.length_drop]
            rw [hresplen, batchAt_length cfg calls i h0 hiN]
            omega
          · rw [hstep]
            ring
          · intro k hk
            obtain ⟨resp', h1, h2⟩ := hprev (k + 1) (by omega)
            have hidx : i + ((k + 1 : Nat) : Int) * cfg.BatchSize
                = i + cfg.BatchSize + (k : Int) * cfg.BatchSize := by
              push_cast
              ring
            rw [hidx] at h1 h2
            exact ⟨resp', h1, h2⟩

/-- C4: if every chunk before the one starting at index i0 succeeds with one
    result per call and the chunk at i0 fails in its encode, remote-call or
    decode step, then MulticallRaw aborts the whole invocation, returning
    that error wrapped with i0 and a nil result list; moreover, on any run
    whatsoever the success return is fully populated — one result per
    request — so a caller never observes a partial result list. -/
theorem chunk_failure_aborts (env : Env) (cfg : MulticallConfig)
    (calls : List CallRequest) (fuel k0 : Nat) (i0 : Int) (s : Stage) (e0 : String)
    (hb : 1 ≤ cfg.BatchSize)
    (hi0 : i0 = (k0 : Int) * cfg.BatchSize) (hi0N : i0 < (calls.length : Int))
    (hprev : ∀ k : Nat, k < k0 → ∃ resp,
      (chunkStep env ⟨cfg.Timeout⟩ cfg.MulticallAddress ((k : Int) * cfg.BatchSize)
        (batchAt cfg calls ((k : Int) * cfg.BatchSize))).1 = Except.ok resp ∧
      resp.length = (batchAt cfg calls ((k : Int) * cfg.BatchSize)).length)
    (hfail : (chunkStep env ⟨cfg.Timeout⟩ cfg.MulticallAddress i0
        (batchAt cfg calls i0)).1 = Except.error (s, e0))
    (hfuel : k0 < fuel) :
    (MulticallRaw env cfg calls fuel).1 = Outcome.err ⟨s, i0, e0⟩ ∧
    ((MulticallRaw env cfg calls fuel).1).goResults = none ∧
    ∀ (env' : Env) (cfg' : MulticallConfig) (calls' : List CallRequest)
      (fuel' : Nat) (rs : List CallResult),
      (MulticallRaw env' cfg' calls' fuel').1 = Outcome.ok rs →
      rs.length = calls'.length := by
  have herr : (MulticallRaw env cfg calls fuel).1 = Outcome.err ⟨s, i0, e0⟩ := by
    unfold MulticallRaw
    apply mcLoop_first_failure env cfg calls ⟨cfg.Timeout⟩ hb k0 fuel 0
      (List.replicate calls.length CallResult.zero) [] i0 s e0 le_rfl (by simp)
      (by rw [hi0]; ring) hi0N ?_ hfail hfuel
    intro k hk
    obtain ⟨resp, h1, h2⟩ := hprev k hk
    have hidx : (0 : Int) + (k : Int) * cfg.BatchSize = (k : Int) * cfg.BatchSize := by
      ring
    rw [hidx]
    exact ⟨resp, h1, h2⟩
  refine ⟨herr, by rw [herr]; rfl, ?_⟩
  intro env' cfg' calls' fuel' rs hok
  unfold MulticallRaw at hok
  exact mcLoop_ok_length env' cfg' calls' ⟨cfg'.Timeout⟩ fuel' 0
    (List.replicate calls'.length CallResult.zero) [] rs (by simp) hok

/-- Witness for C4: with a remote failing on the second chunk (start index
    2), the whole concrete run returns that error and a nil result list. -/
theorem chunk_failure_aborts_check :
    (MulticallRaw envFail cfgW callsW 3).1 = Outcome.err ⟨Stage.calling, 2, "boom"⟩ ∧
    ((MulticallRaw envFail cfgW callsW 3).1).goResults = none ∧
    ∀ (env' : Env) (cfg' : MulticallConfig) (calls' : List CallRequest)
      (fuel' : Nat) (rs : List CallResult),
      (MulticallRaw env' cfg' calls' fuel').1 = Outcome.ok rs →
      rs.length = calls'.length :=
  chunk_failure_aborts envFail cfgW callsW 3 1 2 Stage.calling "boom"
    (by decide) (by decide) (by decide)
    (fun k hk => by
      have hk0 : k = 0 := by omega
      subst hk0
      exact ⟨[⟨true, []⟩, ⟨true, []⟩], rfl, by decide⟩)
    rfl (by decide)
